import Mathlib

/-!
# Verification of the bitwise-stability analysis script

Shallow embedding of `src/analysis.py`.  Real-valued floating-point
computations are modelled over `ℝ` (double-precision rounding is
abstracted away; the order of operations is preserved exactly).
IEEE-754 binary64 values handled at the bit level are modelled by their
64-bit patterns, i.e. natural numbers below `2 ^ 64`, which is what
`struct.unpack(">Q", struct.pack(">d", x))` produces in the source.
Failures raised by the Python code (an `IndexError` when the prime pool
is exhausted, a `ValueError` from `math.log2` on a non-positive
argument) are modelled with `Except`.
-/

namespace BitwiseStability

/-- Errors the script can raise, named as in the specification's error
taxonomy: `insufficientPrimes` models the `IndexError` raised by
`primes[i]` when the requested cascade length exceeds the pool, and
`domainError` models the `ValueError` raised by `math.log2` on a
non-positive argument. -/
inductive Err where
  | insufficientPrimes
  | domainError
deriving DecidableEq

/-- `R(z, p)` from the source:
`math.sin(math.pi / p) * math.cos(math.pi / (2 * p)) * math.sin(math.pi / p)`.
The parameter `z` is accepted and ignored, exactly as in the code. -/
noncomputable def R (_z : ℝ) (p : ℕ) : ℝ :=
  Real.sin (Real.pi / p) * Real.cos (Real.pi / (2 * p)) * Real.sin (Real.pi / p)

/-- The prime pool `list(primerange(2, 2 + 10000))` of the source:
`sympy.primerange(2, b)` returns the primes in `[2, b)` in ascending
order, i.e. the primes among `0, 1, ..., b - 1`. -/
def primePool : List ℕ :=
  (List.range (2 + 10000)).filter (fun m => decide (Nat.Prime m))

/-- The loop of `Cn`: `for i in range(n): product *= R(z, primes[i])`.
The index list is traversed left to right; an out-of-range access
`primes[i]` raises (modelled as `Err.insufficientPrimes`). -/
noncomputable def CnGo (z : ℝ) (primes : List ℕ) :
    List ℕ → ℝ → Except Err ℝ
  | [], product => .ok product
  | i :: rest, product =>
    match primes[i]? with
    | none => .error .insufficientPrimes
    | some p => CnGo z primes rest (product * R z p)

/-- `Cn(z, n)` from the source: start from `product = 1.0` and multiply
in `R(z, primes[i])` for `i = 0, ..., n - 1` in order. -/
noncomputable def Cn (z : ℝ) (n : ℕ) : Except Err ℝ :=
  CnGo z primePool (List.range n) 1

/-- `empirical_stability_law(epsilon)` from the source: return `64` when
`epsilon == 0`, otherwise `64 - int(math.floor(math.log2(1 / epsilon)))`;
`math.log2` raises on a non-positive argument (negative `epsilon` makes
`1 / epsilon` negative), modelled as `Err.domainError`. -/
noncomputable def empirical_stability_law (ε : ℝ) : Except Err ℤ :=
  if ε = 0 then .ok 64
  else if 1 / ε ≤ 0 then .error .domainError
  else .ok (64 - ⌊Real.logb 2 (1 / ε)⌋)

/-! ## Basic facts about the cascade loop -/

theorem CnGo_ignores_z (z₁ z₂ : ℝ) (primes : List ℕ) (idxs : List ℕ)
    (product : ℝ) :
    CnGo z₁ primes idxs product = CnGo z₂ primes idxs product := by
  induction idxs generalizing product with
  | nil => rfl
  | cons i rest ih =>
    simp only [CnGo]
    cases primes[i]? with
    | none => rfl
    | some p => exact ih (product * R z₁ p)

/-! ## C10: cascade length zero -/

/-- C10: for every real `z`, `Cn(z, 0)` does not fail and returns the
empty product `1.0`. -/
theorem C10_cascade_zero_returns_one (z : ℝ) : Cn z 0 = .ok 1 := rfl

/-! ## C2: the result ignores `z` -/

/-- C2: the resonance term and the cascade product are completely
independent of the first argument `z`: for all `z₁`, `z₂`, every prime
argument `p` and every cascade length `n`, `R z₁ p = R z₂ p` and
`Cn z₁ n = Cn z₂ n`. -/
theorem C2_independent_of_z :
    (∀ (z₁ z₂ : ℝ) (p : ℕ), R z₁ p = R z₂ p) ∧
    (∀ (z₁ z₂ : ℝ) (n : ℕ), Cn z₁ n = Cn z₂ n) := by
  refine ⟨fun z₁ z₂ p => rfl, fun z₁ z₂ n => ?_⟩
  exact CnGo_ignores_z z₁ z₂ primePool (List.range n) 1

/-! ## C6 and C7: the stability predictor -/

/-- C6: for every `ε ≥ 0`, the predictor returns exactly `64` when
`ε = 0` and otherwise the integer `64 - ⌊log₂(1 / ε)⌋`, unclamped. -/
theorem C6_stability_law_nonneg (ε : ℝ) (hε : 0 ≤ ε) :
    (ε = 0 → empirical_stability_law ε = .ok 64) ∧
    (ε ≠ 0 →
      empirical_stability_law ε = .ok (64 - ⌊Real.logb 2 (1 / ε)⌋)) := by
  constructor
  · intro h0
    simp [empirical_stability_law, h0]
  · intro hne
    have hpos : 0 < ε := lt_of_le_of_ne hε (Ne.symm hne)
    have hinv : 0 < 1 / ε := by positivity
    rw [empirical_stability_law, if_neg hne, if_neg (not_le.mpr hinv)]

/-- Witness for C6 at `ε = 4`. -/
theorem C6_stability_law_nonneg_witness :
    0 ≤ (4 : ℝ) ∧
    ((4 : ℝ) = 0 → empirical_stability_law 4 = .ok 64) ∧
    ((4 : ℝ) ≠ 0 →
      empirical_stability_law 4 = .ok (64 - ⌊Real.logb 2 (1 / 4)⌋)) :=
  ⟨by norm_num, C6_stability_law_nonneg 4 (by norm_num)⟩

/-- C7: for every strictly negative `ε` the predictor fails with
`DomainError`. -/
theorem C7_stability_law_negative (ε : ℝ) (hε : ε < 0) :
    empirical_stability_law ε = .error .domainError := by
  have hne : ε ≠ 0 := ne_of_lt hε
  have hinv : 1 / ε ≤ 0 := le_of_lt (div_neg_of_pos_of_neg one_pos hε)
  rw [empirical_stability_law, if_neg hne, if_pos hinv]

/-- Witness for C7 at `ε = -1`, the input named by the specification. -/
theorem C7_stability_law_negative_witness :
    (-1 : ℝ) < 0 ∧ empirical_stability_law (-1) = .error .domainError :=
  ⟨neg_one_lt_zero, C7_stability_law_negative (-1) neg_one_lt_zero⟩

/-! ## Bit codec

`float_to_bin64(x)` in the source reinterprets the double `x` as a
64-bit unsigned integer `d` (`struct.unpack(">Q", struct.pack(">d", x))`,
so `0 ≤ d < 2 ^ 64`) and formats it with `f"{d:064b}"`: the big-endian
binary digit string of `d`, left-padded with `'0'` to width 64.  We model
the binary64 value by its bit pattern `d` and the formatting by repeated
division by two. -/

/-- Little-endian binary digits of `n`, by the repeated divide-by-two
scheme; `fuel` bounds the recursion depth and is never exhausted when
`fuel ≥ n`, since a number `n ≥ 1` has at most `n` binary digits. -/
def bitsLE : ℕ → ℕ → List Char
  | 0, _ => []
  | _ + 1, 0 => []
  | fuel + 1, n + 1 =>
    (if (n + 1) % 2 = 1 then '1' else '0') :: bitsLE fuel ((n + 1) / 2)

/-- `f"{d:b}"`: the big-endian binary digit string of `d`, a single
`'0'` for zero and no leading zeros otherwise. -/
def binStr (n : ℕ) : List Char :=
  if n = 0 then ['0'] else (bitsLE n n).reverse

/-- `float_to_bin64` from the source: `f"{d:064b}"` applied to the
64-bit pattern `d` of the double. -/
def float_to_bin64 (d : ℕ) : List Char :=
  List.replicate (64 - (binStr d).length) '0' ++ binStr d

theorem bitsLE_getD (fuel : ℕ) :
    ∀ n, n < 2 ^ fuel → ∀ i,
      (bitsLE fuel n).getD i '0' = if n.testBit i then '1' else '0' := by
  induction fuel with
  | zero =>
    intro n hn i
    have hn0 : n = 0 := by simpa using hn
    subst hn0
    simp [bitsLE, Nat.zero_testBit]
  | succ fuel ih =>
    intro n hn i
    match n with
    | 0 => simp [bitsLE, Nat.zero_testBit]
    | m + 1 =>
      match i with
      | 0 =>
        simp only [bitsLE, List.getD_cons_zero, Nat.testBit_zero]
        by_cases h : (m + 1) % 2 = 1 <;> simp [h]
      | i + 1 =>
        have h2 : (2 : ℕ) ^ (fuel + 1) = 2 ^ fuel * 2 := pow_succ 2 fuel
        have hdiv : (m + 1) / 2 < 2 ^ fuel := by omega
        simp only [bitsLE, List.getD_cons_succ, Nat.testBit_add_one]
        exact ih ((m + 1) / 2) hdiv i

theorem bitsLE_length_le (fuel : ℕ) :
    ∀ k n, n < 2 ^ k → (bitsLE fuel n).length ≤ k := by
  induction fuel with
  | zero => intro k n _; simp [bitsLE]
  | succ fuel ih =>
    intro k n hn
    match n with
    | 0 => simp [bitsLE]
    | m + 1 =>
      match k with
      | 0 => norm_num at hn
      | k + 1 =>
        have h2 : (2 : ℕ) ^ (k + 1) = 2 ^ k * 2 := pow_succ 2 k
        have hdiv : (m + 1) / 2 < 2 ^ k := by omega
        have := ih k ((m + 1) / 2) hdiv
        simp only [bitsLE, List.length_cons]
        omega

theorem lt_two_pow_bitsLE_length (fuel : ℕ) :
    ∀ n, n ≤ fuel → n < 2 ^ (bitsLE fuel n).length := by
  induction fuel with
  | zero =>
    intro n hn
    have hn0 : n = 0 := by omega
    subst hn0
    simp [bitsLE]
  | succ fuel ih =>
    intro n hn
    match n with
    | 0 => simp [bitsLE]
    | m + 1 =>
      have hle : (m + 1) / 2 ≤ fuel := by omega
      have hrec := ih ((m + 1) / 2) hle
      simp only [bitsLE, List.length_cons, pow_succ]
      omega

theorem binStr_length_pos (n : ℕ) : 1 ≤ (binStr n).length := by
  unfold binStr
  split
  · simp
  · rename_i hn
    obtain ⟨m, rfl⟩ : ∃ m, n = m + 1 := ⟨n - 1, by omega⟩
    simp [bitsLE]

theorem binStr_length_le (k n : ℕ) (hk : 1 ≤ k) (hn : n < 2 ^ k) :
    (binStr n).length ≤ k := by
  unfold binStr
  split
  · simpa using hk
  · simpa using bitsLE_length_le n k n hn

theorem lt_two_pow_binStr_length (n : ℕ) : n < 2 ^ (binStr n).length := by
  unfold binStr
  split
  · rename_i hn; subst hn; norm_num
  · simpa using lt_two_pow_bitsLE_length n n le_rfl

theorem binStr_getD_rev (n : ℕ) (j : ℕ) (hj : j < (binStr n).length) :
    (binStr n).getD j '0' =
      if n.testBit ((binStr n).length - 1 - j) then '1' else '0' := by
  by_cases hn : n = 0
  · subst hn
    have hb : binStr 0 = ['0'] := rfl
    rw [hb] at hj ⊢
    have hj0 : j = 0 := by simp at hj; omega
    subst hj0
    simp [Nat.zero_testBit]
  · simp only [binStr, if_neg hn, List.length_reverse] at hj ⊢
    have hjlt : j < (bitsLE n n).reverse.length := by simpa using hj
    rw [List.getD_eq_getElem?_getD, List.getElem?_eq_getElem hjlt,
      Option.getD_some, List.getElem_reverse]
    have hin : (bitsLE n n).length - 1 - j < (bitsLE n n).length := by omega
    have hbd := bitsLE_getD n n (Nat.lt_two_pow n)
      ((bitsLE n n).length - 1 - j)
    rw [List.getD_eq_getElem?_getD, List.getElem?_eq_getElem hin,
      Option.getD_some] at hbd
    rw [hbd]

theorem float_to_bin64_length {d : ℕ} (hd : d < 2 ^ 64) :
    (float_to_bin64 d).length = 64 := by
  have h1 := binStr_length_pos d
  have h2 := binStr_length_le 64 d (by norm_num) hd
  simp only [float_to_bin64, List.length_append, List.length_replicate]
  omega

theorem float_to_bin64_getD {d : ℕ} (hd : d < 2 ^ 64) (i : ℕ)
    (hi : i < 64) :
    (float_to_bin64 d).getD i '0' =
      if d.testBit (63 - i) then '1' else '0' := by
  have hL1 := binStr_length_pos d
  have hL64 := binStr_length_le 64 d (by norm_num) hd
  unfold float_to_bin64
  by_cases hcase : i < 64 - (binStr d).length
  · rw [List.getD_eq_getElem?_getD, List.getElem?_append_left
      (by simpa using hcase), List.getElem?_replicate]
    have hfalse : d.testBit (63 - i) = false := by
      apply Nat.testBit_lt_two_pow
      calc d < 2 ^ (binStr d).length := lt_two_pow_binStr_length d
        _ ≤ 2 ^ (63 - i) :=
          Nat.pow_le_pow_right (by norm_num) (by omega)
    rw [hfalse]
    simp [hcase]
  · have hge : (List.replicate (64 - (binStr d).length) '0').length ≤ i := by
      simpa using not_lt.mp hcase
    rw [List.getD_eq_getElem?_getD, List.getElem?_append_right hge,
      List.length_replicate]
    have hj : i - (64 - (binStr d).length) < (binStr d).length := by omega
    rw [List.getElem?_eq_getElem hj, Option.getD_some]
    have hgd := binStr_getD_rev d (i - (64 - (binStr d).length)) hj
    rw [List.getD_eq_getElem?_getD, List.getElem?_eq_getElem hj,
      Option.getD_some] at hgd
    rw [hgd]
    have harg : (binStr d).length - 1 - (i - (64 - (binStr d).length)) =
        63 - i := by omega
    rw [harg]

/-! ## C8: the encode contract -/

/-- The specification's reading of `encode`: the sign bit (bit 63)
first, then the 11 exponent bits (bits 62 down to 52), then the 52
mantissa bits (bits 51 down to 0). -/
def encodeSpec (d : ℕ) : List Char :=
  (if d.testBit 63 then '1' else '0') ::
    ((List.range 11).map (fun j => if d.testBit (62 - j) then '1' else '0') ++
      (List.range 52).map (fun j => if d.testBit (51 - j) then '1' else '0'))

theorem encodeSpec_length (d : ℕ) : (encodeSpec d).length = 64 := by
  simp [encodeSpec]

theorem encodeSpec_getD (d : ℕ) (i : ℕ) (hi : i < 64) :
    (encodeSpec d).getD i '0' = if d.testBit (63 - i) then '1' else '0' := by
  match i with
  | 0 => rfl
  | j + 1 =>
    simp only [encodeSpec, List.getD_cons_succ]
    by_cases hj : j < 11
    · rw [List.getD_eq_getElem?_getD, List.getElem?_append_left
        (by simpa using hj), List.getElem?_map, List.getElem?_range hj]
      have harg : 63 - (j + 1) = 62 - j := by omega
      rw [harg]
      rfl
    · have hge : ((List.range 11).map
          (fun j => if d.testBit (62 - j) then '1' else '0')).length ≤ j := by
        simpa using not_lt.mp hj
      rw [List.getD_eq_getElem?_getD, List.getElem?_append_right hge]
      simp only [List.length_map, List.length_range]
      have hlt : j - 11 < 52 := by omega
      rw [List.getElem?_map, List.getElem?_range hlt]
      have harg : 63 - (j + 1) = 51 - (j - 11) := by omega
      rw [harg]
      rfl

theorem float_to_bin64_eq_encodeSpec (d : ℕ) (hd : d < 2 ^ 64) :
    float_to_bin64 d = encodeSpec d := by
  apply List.ext_getElem
  · rw [float_to_bin64_length hd, encodeSpec_length]
  · intro i h1 h2
    have hi : i < 64 := by rwa [float_to_bin64_length hd] at h1
    have ha := float_to_bin64_getD hd i hi
    have hb := encodeSpec_getD d i hi
    rw [List.getD_eq_getElem?_getD, List.getElem?_eq_getElem h1,
      Option.getD_some] at ha
    rw [List.getD_eq_getElem?_getD, List.getElem?_eq_getElem h2,
      Option.getD_some] at hb
    rw [ha, hb]

/-- C8: for every binary64 bit pattern `d` (all finite doubles, signed
zeros, infinities and NaN are such patterns), `float_to_bin64 d` is
defined without failure, has exactly 64 characters, each `'0'` or `'1'`,
and equals the big-endian pattern: sign bit first, then the 11 exponent
bits, then the 52 mantissa bits, zero-padded to width 64. -/
theorem C8_encode_bit_pattern (d : ℕ) (hd : d < 2 ^ 64) :
    (float_to_bin64 d).length = 64 ∧
    (∀ c ∈ float_to_bin64 d, c = '0' ∨ c = '1') ∧
    float_to_bin64 d = encodeSpec d := by
  refine ⟨float_to_bin64_length hd, ?_, float_to_bin64_eq_encodeSpec d hd⟩
  intro c hc
  rw [float_to_bin64_eq_encodeSpec d hd] at hc
  simp only [encodeSpec, List.mem_cons, List.mem_append, List.mem_map,
    List.mem_range] at hc
  rcases hc with rfl | ⟨j, _, rfl⟩ | ⟨j, _, rfl⟩ <;> split <;> simp

/-- Witness for C8 at the pattern of `1.0 × 2⁻¹⁰²²`-scale doubles is
unneeded; `d = 1` (the smallest subnormal) suffices. -/
theorem C8_encode_bit_pattern_witness :
    (1 : ℕ) < 2 ^ 64 ∧
    ((float_to_bin64 1).length = 64 ∧
      (∀ c ∈ float_to_bin64 1, c = '0' ∨ c = '1') ∧
      float_to_bin64 1 = encodeSpec 1) :=
  ⟨by norm_num, C8_encode_bit_pattern 1 (by norm_num)⟩

/-! ## Hamming distance and C5 -/

/-- `hamming_distance` from the source:
`sum(b1 != b2 for b1, b2 in zip(bx, by))`. -/
def hamming_distance (x y : ℕ) : ℕ :=
  ((float_to_bin64 x).zip (float_to_bin64 y)).countP (fun bb => bb.1 != bb.2)

/-- C5 counterexample: the claim states
`hammingDistance(+0.0, -0.0) == 64`; the patterns of `+0.0` and `-0.0`
are `0` and `2 ^ 63`, and their distance is `1`, not `64`. -/
theorem C5_counterexample : hamming_distance 0 (2 ^ 63) ≠ 64 := by decide

/-- C5 (amended): `hamming_distance x y = 0` exactly when the two
encodings are bit-identical, and the distance between the patterns of
`+0.0` and `-0.0` is `1` (only the sign bits differ), not `64`. -/
theorem C5_hamming_zero_iff :
    (∀ x y : ℕ, x < 2 ^ 64 → y < 2 ^ 64 →
      (hamming_distance x y = 0 ↔ float_to_bin64 x = float_to_bin64 y)) ∧
    hamming_distance 0 (2 ^ 63) = 1 := by
  refine ⟨fun x y hx hy => ?_, by decide⟩
  unfold hamming_distance
  rw [List.countP_eq_zero]
  constructor
  · intro hall
    apply List.ext_getElem
      (by rw [float_to_bin64_length hx, float_to_bin64_length hy])
    intro i h1 h2
    have hzi : i < ((float_to_bin64 x).zip (float_to_bin64 y)).length := by
      rw [List.length_zip]
      exact lt_min h1 h2
    have hmem := List.getElem_mem hzi
    have hni := hall _ hmem
    rw [List.getElem_zip] at hni
    simpa using hni
  · intro heq bb hbb
    rw [heq] at hbb
    obtain ⟨i, hi, rfl⟩ := List.mem_iff_getElem.mp hbb
    rw [List.getElem_zip]
    simp

/-- Witness for C5 at `x = 3`, `y = 3`. -/
theorem C5_hamming_zero_iff_witness :
    (3 : ℕ) < 2 ^ 64 ∧
    (hamming_distance 3 3 = 0 ↔ float_to_bin64 3 = float_to_bin64 3) :=
  ⟨by norm_num, C5_hamming_zero_iff.1 3 3 (by norm_num) (by norm_num)⟩

/-! ## Common bit prefix, C4 and C9 -/

/-- The comparator common_bit_prefix from the source.  `bins` is the list of 64-bit
encodings; for an empty input `zip(*bins)` is `zip()`, which is empty,
and the function returns `0` without raising.  For a non-empty input
every entry of `bins` has exactly 64 characters (`float_to_bin64_length`),
so `zip(*bins)` yields the 64 bit positions in order, and the loop counts
the positions where every string's bit equals `bits[0]` — the first
string's bit — stopping at the first disagreement. -/
def common_bit_prefix : List ℕ → ℕ
  | [] => 0
  | x :: xt =>
    ((List.range 64).takeWhile
      (fun i => ((x :: xt).map float_to_bin64).all
        (fun s => s.getD i '0' == (float_to_bin64 x).getD i '0'))).length

/-- C4 counterexample: on the empty sequence the comparator does not
fail (its loop body never runs); it returns `0`, so the claimed
`EmptyInputError` never arises. -/
theorem C4_counterexample : common_bit_prefix [] = 0 := rfl

/-- C4 (amended): calling the comparator on an empty sequence of values
does not fail and returns `0`. -/
theorem C4_empty_input_returns_zero : common_bit_prefix [] = 0 := rfl

theorem length_takeWhile_le_of_imp {α : Type} {p q : α → Bool}
    (l : List α) (h : ∀ a, p a = true → q a = true) :
    (l.takeWhile p).length ≤ (l.takeWhile q).length := by
  induction l with
  | nil => simp
  | cons a t ih =>
    by_cases hpa : p a = true
    · rw [List.takeWhile_cons_of_pos hpa, List.takeWhile_cons_of_pos (h a hpa)]
      simpa using ih
    · rw [List.takeWhile_cons_of_neg hpa]
      simp

theorem all_agree_of_sublist {b b' : List Char} {t t' : List (List Char)}
    (hsub : List.Sublist (b' :: t') (b :: t)) (i : ℕ)
    (hagree : ((b :: t).all fun s => s.getD i '0' == b.getD i '0') = true) :
    ((b' :: t').all fun s => s.getD i '0' == b'.getD i '0') = true := by
  simp only [List.all_eq_true, beq_iff_eq] at hagree ⊢
  have hb' : b'.getD i '0' = b.getD i '0' :=
    hagree b' (hsub.subset (List.mem_cons_self b' t'))
  intro s hs
  rw [hagree s (hsub.subset hs), hb']

/-- C9: the common-prefix length is antitone under adding values: if the
non-empty `ys` is a subsequence of the non-empty `xs` (all of them
binary64 patterns), then the prefix length of `xs` is at most that of
`ys`; in particular appending a value never increases the result. -/
theorem C9_common_prefix_antitone (xs ys : List ℕ)
    (hsub : List.Sublist ys xs) (hys : ys ≠ []) (hxs : xs ≠ [])
    (hdom : ∀ x ∈ xs, x < 2 ^ 64) :
    common_bit_prefix xs ≤ common_bit_prefix ys := by
  obtain ⟨y, yt, rfl⟩ := List.exists_cons_of_ne_nil hys
  obtain ⟨x, xt, rfl⟩ := List.exists_cons_of_ne_nil hxs
  simp only [ common_bit_prefix]
  apply length_takeWhile_le_of_imp
  intro i hp
  exact all_agree_of_sublist (hsub.map float_to_bin64) i hp

/-- Witness for C9: `[1]` is a non-empty subsequence of `[1, 2]`. -/
theorem C9_common_prefix_antitone_witness :
    List.Sublist ([1] : List ℕ) [1, 2] ∧ ([1] : List ℕ) ≠ [] ∧
    ([1, 2] : List ℕ) ≠ [] ∧ (∀ x ∈ ([1, 2] : List ℕ), x < 2 ^ 64) ∧
    common_bit_prefix [1, 2] ≤ common_bit_prefix [1] :=
  ⟨by decide, by decide, by decide, by decide,
    C9_common_prefix_antitone [1, 2] [1] (by decide) (by decide) (by decide)
      (by decide)⟩

/-! ## The prime pool: C1 and C3 -/

theorem primePool_pairwise : primePool.Pairwise (· < ·) :=
  List.Pairwise.sublist (List.filter_sublist _) (List.pairwise_lt_range _)

theorem mem_primePool {m : ℕ} :
    m ∈ primePool ↔ m < 2 + 10000 ∧ Nat.Prime m := by
  simp [primePool]

theorem one_le_primePool_length : 1 ≤ primePool.length :=
  List.length_pos_of_mem (mem_primePool.mpr ⟨by norm_num, Nat.prime_two⟩)

theorem primePool_length_le : primePool.length ≤ 10002 := by
  have h := List.length_filter_le
    (fun m => decide (Nat.Prime m)) (List.range (2 + 10000))
  simpa using h

/-- In a strictly sorted list, the elements smaller than the `k`-th one
are exactly the first `k`. -/
theorem filter_lt_getElem_eq_take {l : List ℕ} (hl : l.Pairwise (· < ·)) :
    ∀ k (hk : k < l.length),
      l.filter (fun x => decide (x < l[k])) = l.take k := by
  induction l with
  | nil => intro k hk; simp at hk
  | cons a t ih =>
    intro k hk
    match k with
    | 0 =>
      simp only [List.getElem_cons_zero, List.take_zero]
      apply List.filter_eq_nil_iff.mpr
      intro x hx
      simp only [decide_eq_true_eq]
      rcases List.mem_cons.mp hx with rfl | hx'
      · omega
      · have := (List.pairwise_cons.mp hl).1 x hx'
        omega
    | k + 1 =>
      have hk' : k < t.length := by simpa using hk
      simp only [List.getElem_cons_succ]
      rw [List.filter_cons]
      have ha : a < t[k] :=
        (List.pairwise_cons.mp hl).1 _ (List.getElem_mem hk')
      rw [if_pos (by simpa using ha), ih (List.pairwise_cons.mp hl).2 k hk']
      rfl

theorem range_filter_lt (N m : ℕ) (h : m ≤ N) :
    (List.range N).filter (fun x => decide (x < m)) = List.range m := by
  obtain ⟨k, rfl⟩ : ∃ k, N = m + k := ⟨N - m, by omega⟩
  rw [List.range_add, List.filter_append]
  have h1 : (List.range m).filter (fun x => decide (x < m)) = List.range m :=
    List.filter_eq_self.mpr
      (by intro a ha; simpa using List.mem_range.mp ha)
  have h2 : ((List.range k).map (m + ·)).filter
      (fun x => decide (x < m)) = [] := by
    apply List.filter_eq_nil_iff.mpr
    intro a ha
    obtain ⟨j, hj, rfl⟩ := List.mem_map.mp ha
    simp only [decide_eq_true_eq]
    omega
  rw [h1, h2, List.append_nil]

/-- The `k`-th element of the pool is the `k`-th prime (0-indexed). -/
theorem primePool_getElem_eq_nth (k : ℕ) (hk : k < primePool.length) :
    primePool[k] = Nat.nth Nat.Prime k := by
  have hmem : primePool[k] ∈ primePool := List.getElem_mem hk
  set m := primePool[k] with hm
  have hprime : Nat.Prime m := (mem_primePool.mp hmem).2
  have hmN : m < 2 + 10000 := (mem_primePool.mp hmem).1
  have hcount : Nat.count Nat.Prime m = k := by
    unfold Nat.count
    rw [List.countP_eq_length_filter]
    have hcomm : (List.range m).filter (fun x => decide (Nat.Prime x)) =
        primePool.filter (fun x => decide (x < m)) := by
      rw [← range_filter_lt (2 + 10000) m (le_of_lt hmN)]
      unfold primePool
      rw [List.filter_filter, List.filter_filter]
      apply List.filter_congr
      intro a _
      exact Bool.and_comm _ _
    rw [hcomm, hm, filter_lt_getElem_eq_take primePool_pairwise k hk,
      List.length_take]
    omega
  have hn := Nat.nth_count hprime
  rw [hcount] at hn
  exact hn.symm

/-- The spec's Resonance Term contract:
`sin(π/p) · cos(π/(2p)) · sin(π/p)`. -/
noncomputable def resonanceTermSpec (_z : ℝ) (p : ℕ) : ℝ :=
  Real.sin (Real.pi / p) * Real.cos (Real.pi / (2 * p)) * Real.sin (Real.pi / p)

/-- The spec's Cascade Product contract: the left-to-right product,
starting from `1.0`, of the Resonance Term at the first `n` primes in
ascending order (`Nat.nth Nat.Prime k` is the `k`-th prime, 0-indexed,
so `Nat.nth Nat.Prime 0 = 2`). -/
noncomputable def cascadeSpec (z : ℝ) (n : ℕ) : ℝ :=
  ((List.range n).map (fun k => resonanceTermSpec z (Nat.nth Nat.Prime k))).foldl
    (· * ·) 1

theorem CnGo_range' (z : ℝ) (primes : List ℕ) :
    ∀ cnt s product, s + cnt ≤ primes.length →
      CnGo z primes (List.range' s cnt) product =
        .ok (((primes.drop s).take cnt).foldl
          (fun acc p => acc * R z p) product) := by
  intro cnt
  induction cnt with
  | zero => intro s product _; simp [CnGo]
  | succ cnt ih =>
    intro s product hs
    have hslt : s < primes.length := by omega
    rw [List.range'_succ]
    simp only [CnGo, List.getElem?_eq_getElem hslt]
    rw [ih (s + 1) (product * R z primes[s]) (by omega),
      List.drop_eq_getElem_cons hslt]
    rfl

theorem Cn_eq_foldl_take (z : ℝ) (n : ℕ) (hn : n ≤ primePool.length) :
    Cn z n = .ok ((primePool.take n).foldl (fun acc p => acc * R z p) 1) := by
  have h := CnGo_range' z primePool n 0 1 (by omega)
  unfold Cn
  rw [List.range_eq_range', h, List.drop_zero]

theorem primePool_take_eq (n : ℕ) (hn : n ≤ primePool.length) :
    primePool.take n = (List.range n).map (fun k => Nat.nth Nat.Prime k) := by
  apply List.ext_getElem
  · rw [List.length_take, List.length_map, List.length_range]
    omega
  · intro i h1 h2
    have hi_n : i < n := by simpa using h2
    have hip : i < primePool.length := by omega
    apply Option.some.inj
    rw [← List.getElem?_eq_getElem h1, ← List.getElem?_eq_getElem h2,
      List.getElem?_take_of_lt hi_n, List.getElem?_map,
      List.getElem?_range hi_n, List.getElem?_eq_getElem hip]
    exact congrArg some (by simpa using primePool_getElem_eq_nth i hip)

/-- C1: for every real `z` and every `n ≥ 1` within the prime pool,
`Cn(z, n)` succeeds and equals the left-to-right product, starting from
`1.0`, of the Resonance Term over the first `n` primes in ascending
order. -/
theorem C1_cascade_eq_spec_product (z : ℝ) (n : ℕ)
    (_hn1 : 1 ≤ n) (hn : n ≤ primePool.length) :
    Cn z n = .ok (cascadeSpec z n) := by
  rw [Cn_eq_foldl_take z n hn]
  congr 1
  unfold cascadeSpec
  rw [List.foldl_map, primePool_take_eq n hn, List.foldl_map]
  rfl

/-- Witness for C1 at `z = 0`, `n = 1`. -/
theorem C1_cascade_eq_spec_product_witness :
    (1 ≤ 1 ∧ 1 ≤ primePool.length) ∧ Cn 0 1 = .ok (cascadeSpec 0 1) :=
  ⟨⟨le_rfl, one_le_primePool_length⟩,
    C1_cascade_eq_spec_product 0 1 le_rfl one_le_primePool_length⟩

theorem CnGo_error_of_exists_oob (z : ℝ) (primes : List ℕ) :
    ∀ idxs product, (∃ i ∈ idxs, primes.length ≤ i) →
      CnGo z primes idxs product = .error .insufficientPrimes := by
  intro idxs
  induction idxs with
  | nil => intro product h; simp at h
  | cons i rest ih =>
    intro product h
    by_cases hi : i < primes.length
    · simp only [CnGo, List.getElem?_eq_getElem hi]
      apply ih
      rcases h with ⟨j, hj, hjlen⟩
      rcases List.mem_cons.mp hj with rfl | hj'
      · omega
      · exact ⟨j, hj', hjlen⟩
    · simp only [CnGo, List.getElem?_eq_none (by omega : primes.length ≤ i)]

/-- C3: for every real `z` and every `n` larger than the prime pool
(the primes below `10002`), `Cn(z, n)` fails with
`InsufficientPrimesError` and never returns a product. -/
theorem C3_insufficient_pool (z : ℝ) (n : ℕ)
    (hn : primePool.length < n) :
    Cn z n = .error .insufficientPrimes := by
  unfold Cn
  apply CnGo_error_of_exists_oob
  exact ⟨primePool.length, List.mem_range.mpr hn, le_rfl⟩

/-- Witness for C3 at `z = 0`, `n = 10003`, a count that certainly
exceeds the pool (the pool is a filtering of `range 10002`). -/
theorem C3_insufficient_pool_witness :
    primePool.length < 10003 ∧ Cn 0 10003 = .error .insufficientPrimes :=
  ⟨by have := primePool_length_le; omega,
    C3_insufficient_pool 0 10003 (by have := primePool_length_le; omega)⟩

end BitwiseStability
